import Mathlib

/-!
Verification of the `file_recovery_on_error` context manager from
`fiscai/utils/file.py` (repository FiscAI).

The filesystem is modelled as a map from paths to optional byte contents.
The caller's protected block is an arbitrary function that mutates the
filesystem and optionally raises an exception.  The guard is translated
line by line from the source:

* lines 124-132: snapshot loop — for each input path (enumerated from 0),
  if the file exists its bytes are copied into the private temporary
  directory under the name `backup_{i}_{basename}` and the Python dict
  `backup_info` records `('exists', backup_file)`; otherwise it records
  `('not_exists', None)`.  `shutil.copy2` is fallible, modelled by an
  I/O oracle.
* lines 134-147: `try: yield / except: restore; raise` — on an exception
  of any kind the restore loop runs over `backup_info` in insertion
  order, then the original exception is re-raised.
-/

namespace FiscAI

/-- Byte content of a file. -/
abbrev Content := List Nat

/-- A filesystem path (assumed canonical, so string equality is path
identity, matching `pathlib.Path` equality on canonical paths). -/
abbrev FPath := String

/-- A filesystem: which paths hold which byte content.  `none` means the
path does not exist. -/
abbrev FS := FPath → Option Content

/-- An I/O error raised by a failed `shutil.copy2` during snapshot capture. -/
abbrev IOErr := String

/-- Writing a file: `Path.write_bytes` / the effect of `shutil.copy2` onto the
destination. -/
def fsWrite (fs : FS) (p : FPath) (c : Content) : FS :=
  fun q => if q = p then some c else fs q

/-- Deleting a file: `Path.unlink`. -/
def fsDelete (fs : FS) (p : FPath) : FS :=
  fun q => if q = p then none else fs q

/-- A Python throwable: its type, message and attached context/traceback.
`isExceptionSubclass` is `false` for `BaseException`-only throwables such as
`KeyboardInterrupt` and `SystemExit`. -/
structure Exn where
  typeName : String
  message : String
  contextInfo : String
  isExceptionSubclass : Bool
deriving DecidableEq, Repr

/-- The caller's protected block: it turns the filesystem at entry into the
filesystem at exit, and optionally raises an exception (the `Option Exn`).
Any sequence of mutations — modification, truncation, deletion, multiple
rewrites, or no activity at all — is some such function. -/
abbrev Block := FS → FS × Option Exn

/-- Decimal digit characters of a natural number, fuel-indexed so the
definition is structural (fuel `n + 1` always suffices). -/
def natCharsAux : Nat → Nat → List Char
  | 0, _ => []
  | fuel + 1, n =>
    if n < 10 then [Nat.digitChar n]
    else natCharsAux fuel (n / 10) ++ [Nat.digitChar (n % 10)]

/-- The decimal rendering of a natural number, as produced by Python's
`str(i)` inside the f-string `f"backup_{i}_{file_path.name}"`. -/
def natChars (n : Nat) : List Char := natCharsAux (n + 1) n

/-- Python `str(i)` as a Lean string. -/
def natStr (n : Nat) : String := String.mk (natChars n)

/-- The base name `file_path.name`: the last `/`-separated component. -/
def pathBase (p : FPath) : String := (p.splitOn "/").getLastD ""

/-- The backup file name used on line 127:
`f"backup_{i}_{file_path.name}"`, keyed by the input index `i` and the
file's base name. -/
def backupName (i : Nat) (p : FPath) : FPath :=
  "backup_" ++ natStr i ++ "_" ++ pathBase p

/-- Prior state recorded in `backup_info` (line 129 / line 132): the pair
`('exists', backup_file)` or `('not_exists', None)`. -/
inductive PriorStatus where
  | existed (backup : FPath) : PriorStatus
  | absent : PriorStatus
deriving DecidableEq, Repr

/-- A Python `dict` from paths to prior statuses, as an insertion-ordered
association list with unique keys (exactly `dict` iteration semantics). -/
abbrev BackupInfo := List (FPath × PriorStatus)

/-- Python `d[k] = v`: replaces the value at an existing key in place
(keeping its position), otherwise appends the new pair. -/
def dictInsert (d : BackupInfo) (k : FPath) (v : PriorStatus) : BackupInfo :=
  match d with
  | [] => [(k, v)]
  | (k', v') :: rest =>
    if k' = k then (k, v) :: rest else (k', v') :: dictInsert rest k v

/-- Python `d.get(k)`. -/
def dictGet (d : BackupInfo) (k : FPath) : Option PriorStatus :=
  match d with
  | [] => none
  | (k', v') :: rest => if k' = k then some v' else dictGet rest k

/-- The keys of `backup_info`, in iteration order. -/
def dictKeys (d : BackupInfo) : List FPath := d.map Prod.fst

/-- The private temporary directory: which backup names hold which bytes.
Fresh (empty) at every guard invocation, since `TemporaryDirectory()`
creates a unique private directory. -/
abbrev TempDir := FPath → Option Content

/-- The empty temporary directory created on line 119. -/
def emptyTemp : TempDir := fun _ => none

/-- An I/O oracle: `copyFail p = some e` means `shutil.copy2(p, backup)`
raises `e` when asked to copy `p` during snapshot capture. -/
abbrev CopyOracle := FPath → Option IOErr

/-- The oracle of an I/O-failure-free run. -/
def ioOk : CopyOracle := fun _ => none

/-- Lines 124-132: the snapshot loop.  `i` is the `enumerate` index.  For
each existing file, `shutil.copy2` puts its bytes into the temporary
directory under `backup_{i}_{name}` (or raises, aborting the guard), and
`backup_info[file_path] = ('exists', backup_file)`; for each non-existing
file, `backup_info[file_path] = ('not_exists', None)`. -/
def captureFrom (fs : FS) (oracle : CopyOracle) :
    List FPath → Nat → BackupInfo → TempDir → Except IOErr (BackupInfo × TempDir)
  | [], _, info, temp => .ok (info, temp)
  | p :: rest, i, info, temp =>
    match fs p with
    | some c =>
      match oracle p with
      | some e => .error e
      | none =>
        let b := backupName i p
        captureFrom fs oracle rest (i + 1)
          (dictInsert info p (.existed b))
          (fsWrite temp b c)
    | none =>
      captureFrom fs oracle rest (i + 1) (dictInsert info p .absent) temp

/-- Lines 138-146: the restore loop, over the items of `backup_info` in
insertion order.  For an `('exists', backup)` record, restore from the
backup only if the backup file exists (line 141), else skip; for a
`('not_exists', None)` record, delete the path if it now exists. -/
def restoreFiles : BackupInfo → TempDir → FS → FS
  | [], _, fs => fs
  | (p, .existed b) :: rest, temp, fs =>
    match temp b with
    | some c => restoreFiles rest temp (fsWrite fs p c)
    | none => restoreFiles rest temp fs
  | (p, .absent) :: rest, temp, fs =>
    restoreFiles rest temp (if (fs p).isSome then fsDelete fs p else fs)

/-- The observable outcome of one guard invocation. -/
inductive GuardOutcome where
  | snapshotError (e : IOErr) (fs : FS) : GuardOutcome
  | ok (fs : FS) : GuardOutcome
  | raised (e : Exn) (fs : FS) : GuardOutcome

/-- `file_recovery_on_error(files)` around a caller block, lines 117-147:
capture snapshots (propagating any copy failure before the block runs),
run the block, and on an exception of any kind (`except:` is bare) restore
every recorded path and re-raise the original exception. -/
def file_recovery_on_error (files : List FPath) (oracle : CopyOracle)
    (block : Block) (fs : FS) : GuardOutcome :=
  match captureFrom fs oracle files 0 [] emptyTemp with
  | .error e => .snapshotError e fs
  | .ok (info, temp) =>
    match block fs with
    | (fs', none) => .ok fs'
    | (fs', some e) => .raised e (restoreFiles info temp fs')

/-! ### Decimal rendering: soundness, injectivity, and absence of `'_'` -/

/-- Numeric value of a decimal digit character. -/
def charVal (c : Char) : Nat := c.toNat - 48

/-- Value of a decimal digit string (big-endian). -/
def listVal : List Char → Nat
  | [] => 0
  | c :: rest => charVal c * 10 ^ rest.length + listVal rest

theorem charVal_digitChar {m : Nat} (h : m < 10) :
    charVal (Nat.digitChar m) = m := by
  interval_cases m <;> decide

theorem digitChar_ne_underscore {m : Nat} (h : m < 10) :
    Nat.digitChar m ≠ '_' := by
  interval_cases m <;> decide

theorem listVal_append_digit (xs : List Char) (c : Char) :
    listVal (xs ++ [c]) = listVal xs * 10 + charVal c := by
  induction xs with
  | nil => simp [listVal]
  | cons x xs ih =>
    simp only [List.cons_append, listVal, List.append_eq, List.length_append,
      List.length_cons, List.length_nil, ih, pow_succ]
    ring

theorem listVal_natCharsAux : ∀ (f n : Nat), n < f →
    listVal (natCharsAux f n) = n := by
  intro f
  induction f with
  | zero => intro n h; omega
  | succ f ih =>
    intro n hn
    by_cases h10 : n < 10
    · simp [natCharsAux, h10, listVal, charVal_digitChar h10]
    · have hpos : 0 < n := by omega
      have hdiv : n / 10 < n := Nat.div_lt_self hpos (by omega)
      have hf : n / 10 < f := by omega
      simp only [natCharsAux, if_neg h10, listVal_append_digit, ih _ hf,
        charVal_digitChar (Nat.mod_lt n (by omega))]
      omega

theorem natChars_inj {i j : Nat} (h : natChars i = natChars j) : i = j := by
  have hi := listVal_natCharsAux (i + 1) i (by omega)
  have hj := listVal_natCharsAux (j + 1) j (by omega)
  rw [show natCharsAux (i + 1) i = natChars i from rfl] at hi
  rw [show natCharsAux (j + 1) j = natChars j from rfl] at hj
  rw [h] at hi
  omega

theorem underscore_not_mem_natCharsAux : ∀ (f n : Nat), n < f →
    '_' ∉ natCharsAux f n := by
  intro f
  induction f with
  | zero => intro n h; omega
  | succ f ih =>
    intro n hn
    by_cases h10 : n < 10
    · simp only [natCharsAux, if_pos h10, List.mem_singleton]
      exact fun h => digitChar_ne_underscore h10 h.symm
    · have hpos : 0 < n := by omega
      have hdiv : n / 10 < n := Nat.div_lt_self hpos (by omega)
      have hf : n / 10 < f := by omega
      simp only [natCharsAux, if_neg h10, List.mem_append, List.mem_singleton]
      rintro (h | h)
      · exact ih _ hf h
      · exact digitChar_ne_underscore (Nat.mod_lt n (by omega)) h.symm

theorem underscore_not_mem_natChars (n : Nat) : '_' ∉ natChars n :=
  underscore_not_mem_natCharsAux (n + 1) n (by omega)

/-- Two underscore-free lists followed by an underscore separator delimit
the same prefix. -/
theorem sep_split : ∀ (A B u v : List Char), '_' ∉ A → '_' ∉ B →
    A ++ '_' :: u = B ++ '_' :: v → A = B := by
  intro A
  induction A with
  | nil =>
    intro B u v _ hB h
    cases B with
    | nil => rfl
    | cons b B' =>
      simp only [List.nil_append, List.cons_append, List.cons.injEq] at h
      exact absurd (List.mem_cons_self b B') (h.1 ▸ hB)
  | cons a A' ih =>
    intro B u v hA hB h
    cases B with
    | nil =>
      simp only [List.cons_append, List.nil_append, List.cons.injEq] at h
      exact absurd (List.mem_cons_self a A') (h.1 ▸ hA)
    | cons b B' =>
      simp only [List.cons_append, List.cons.injEq] at h
      have hA' : '_' ∉ A' := fun hm => hA (List.mem_cons_of_mem a hm)
      have hB' : '_' ∉ B' := fun hm => hB (List.mem_cons_of_mem b hm)
      rw [h.1, ih B' u v hA' hB' h.2]

/-- Backup names at distinct input indices never collide, whatever the
base names: the index is delimited by underscores and `str(i)` contains
none. -/
theorem backupName_inj_idx {i j : Nat} {p q : FPath}
    (h : backupName i p = backupName j q) : i = j := by
  have hd := congrArg String.data h
  simp only [backupName, natStr, String.data_append] at hd
  have hd' : ("backup_" : String).data ++ (natChars i ++ '_' :: (pathBase p).data)
      = ("backup_" : String).data ++ (natChars j ++ '_' :: (pathBase q).data) := by
    simpa [List.append_assoc] using hd
  have hcan := List.append_cancel_left hd'
  exact natChars_inj (sep_split _ _ _ _
    (underscore_not_mem_natChars i) (underscore_not_mem_natChars j) hcan)

/-! ### Pointwise facts about filesystem writes and deletes -/

theorem fsWrite_self (fs : FS) (p : FPath) (c : Content) :
    fsWrite fs p c p = some c := by simp [fsWrite]

theorem fsWrite_ne (fs : FS) (p : FPath) (c : Content) (q : FPath)
    (h : q ≠ p) : fsWrite fs p c q = fs q := by simp [fsWrite, h]

theorem fsDelete_self (fs : FS) (p : FPath) : fsDelete fs p p = none := by
  simp [fsDelete]

theorem fsDelete_ne (fs : FS) (p : FPath) (q : FPath) (h : q ≠ p) :
    fsDelete fs p q = fs q := by simp [fsDelete, h]

/-! ### Python dict semantics -/

theorem dictInsert_cons_eq (k : FPath) (v v' : PriorStatus) (rest : BackupInfo) :
    dictInsert ((k, v') :: rest) k v = (k, v) :: rest := by simp [dictInsert]

theorem dictInsert_cons_ne (k k' : FPath) (v v' : PriorStatus)
    (rest : BackupInfo) (h : k' ≠ k) :
    dictInsert ((k', v') :: rest) k v = (k', v') :: dictInsert rest k v := by
  simp [dictInsert, h]

theorem dictGet_cons_self (k : FPath) (v : PriorStatus) (rest : BackupInfo) :
    dictGet ((k, v) :: rest) k = some v := by simp [dictGet]

theorem dictGet_cons_ne (k' : FPath) (v' : PriorStatus) (rest : BackupInfo)
    (p : FPath) (h : k' ≠ p) : dictGet ((k', v') :: rest) p = dictGet rest p := by
  simp [dictGet, h]

theorem dictGet_insert_self (d : BackupInfo) (k : FPath) (v : PriorStatus) :
    dictGet (dictInsert d k v) k = some v := by
  induction d with
  | nil => simp [dictInsert, dictGet]
  | cons e rest ih =>
    obtain ⟨k', v'⟩ := e
    by_cases h : k' = k
    · subst h
      rw [dictInsert_cons_eq, dictGet_cons_self]
    · rw [dictInsert_cons_ne _ _ _ _ _ h, dictGet_cons_ne _ _ _ _ h, ih]

theorem dictGet_insert_ne (d : BackupInfo) (k : FPath) (v : PriorStatus)
    (p : FPath) (hne : p ≠ k) : dictGet (dictInsert d k v) p = dictGet d p := by
  have hkp : k ≠ p := fun h => hne h.symm
  induction d with
  | nil => simp [dictInsert, dictGet, hkp]
  | cons e rest ih =>
    obtain ⟨k', v'⟩ := e
    by_cases h : k' = k
    · subst h
      rw [dictInsert_cons_eq, dictGet_cons_ne _ _ _ _ hkp,
        dictGet_cons_ne _ _ _ _ hkp]
    · by_cases hp : k' = p
      · subst hp
        rw [dictInsert_cons_ne _ _ _ _ _ h, dictGet_cons_self, dictGet_cons_self]
      · rw [dictInsert_cons_ne _ _ _ _ _ h, dictGet_cons_ne _ _ _ _ hp,
          dictGet_cons_ne _ _ _ _ hp, ih]

theorem mem_dictKeys_insert (d : BackupInfo) (k : FPath) (v : PriorStatus)
    (p : FPath) : p ∈ dictKeys (dictInsert d k v) ↔ p ∈ dictKeys d ∨ p = k := by
  induction d with
  | nil =>
    simp only [dictInsert, dictKeys, List.map_cons, List.map_nil,
      List.mem_singleton, List.not_mem_nil]
    tauto
  | cons e rest ih =>
    obtain ⟨k', v'⟩ := e
    by_cases h : k' = k
    · subst h
      rw [dictInsert_cons_eq]
      simp only [dictKeys, List.map_cons, List.mem_cons]
      tauto
    · rw [dictInsert_cons_ne _ _ _ _ _ h]
      simp only [dictKeys, List.map_cons, List.mem_cons] at *
      tauto

theorem nodup_dictKeys_insert (d : BackupInfo) (k : FPath) (v : PriorStatus)
    (h : (dictKeys d).Nodup) : (dictKeys (dictInsert d k v)).Nodup := by
  induction d with
  | nil => simp [dictInsert, dictKeys]
  | cons e rest ih =>
    obtain ⟨k', v'⟩ := e
    simp only [dictKeys, List.map_cons, List.nodup_cons] at h
    by_cases hk : k' = k
    · subst hk
      rw [dictInsert_cons_eq]
      simp only [dictKeys, List.map_cons, List.nodup_cons]
      exact h
    · have hrest := ih h.2
      rw [dictInsert_cons_ne _ _ _ _ _ hk]
      simp only [dictKeys, List.map_cons, List.nodup_cons]
      refine ⟨fun hm => ?_, hrest⟩
      have hm' := (mem_dictKeys_insert rest k v k').mp hm
      rcases hm' with hm' | hm'
      · exact h.1 hm'
      · exact hk hm'

/-! ### The restore loop, stepwise and pointwise -/

theorem restoreFiles_cons_existed_hit (p b : FPath) (rest : BackupInfo)
    (temp : TempDir) (fs : FS) (c : Content) (h : temp b = some c) :
    restoreFiles ((p, .existed b) :: rest) temp fs
      = restoreFiles rest temp (fsWrite fs p c) := by
  simp [restoreFiles, h]

theorem restoreFiles_cons_existed_miss (p b : FPath) (rest : BackupInfo)
    (temp : TempDir) (fs : FS) (h : temp b = none) :
    restoreFiles ((p, .existed b) :: rest) temp fs = restoreFiles rest temp fs := by
  simp [restoreFiles, h]

theorem restoreFiles_cons_absent (p : FPath) (rest : BackupInfo)
    (temp : TempDir) (fs : FS) :
    restoreFiles ((p, .absent) :: rest) temp fs
      = restoreFiles rest temp (if (fs p).isSome then fsDelete fs p else fs) := by
  simp [restoreFiles]

theorem restoreFiles_get_not_mem : ∀ (info : BackupInfo) (temp : TempDir)
    (fs : FS) (p : FPath), p ∉ dictKeys info → restoreFiles info temp fs p = fs p := by
  intro info
  induction info with
  | nil => intro temp fs p _; rfl
  | cons e rest ih =>
    intro temp fs p hp
    obtain ⟨q, st⟩ := e
    simp only [dictKeys, List.map_cons, List.mem_cons] at hp
    push_neg at hp
    have hq : p ≠ q := hp.1
    have hrest : p ∉ dictKeys rest := hp.2
    cases st with
    | existed b =>
      cases htb : temp b with
      | some c =>
        rw [restoreFiles_cons_existed_hit _ _ _ _ _ _ htb, ih _ _ _ hrest,
          fsWrite_ne _ _ _ _ hq]
      | none =>
        rw [restoreFiles_cons_existed_miss _ _ _ _ _ htb, ih _ _ _ hrest]
    | absent =>
      rw [restoreFiles_cons_absent, ih _ _ _ hrest]
      by_cases hex : (fs q).isSome
      · rw [if_pos hex, fsDelete_ne _ _ _ hq]
      · rw [if_neg hex]

theorem restoreFiles_get_existed : ∀ (info : BackupInfo) (temp : TempDir)
    (fs : FS) (p b : FPath) (c : Content),
    (dictKeys info).Nodup → dictGet info p = some (.existed b) →
    temp b = some c → restoreFiles info temp fs p = some c := by
  intro info
  induction info with
  | nil => intro temp fs p b c _ hget; simp [dictGet] at hget
  | cons e rest ih =>
    intro temp fs p b c hnd hget htb
    obtain ⟨q, st⟩ := e
    simp only [dictKeys, List.map_cons, List.nodup_cons] at hnd
    by_cases hq : q = p
    · subst hq
      rw [dictGet_cons_self] at hget
      injection hget with hst
      subst hst
      rw [restoreFiles_cons_existed_hit _ _ _ _ _ _ htb,
        restoreFiles_get_not_mem _ _ _ _ hnd.1, fsWrite_self]
    · rw [dictGet_cons_ne _ _ _ _ hq] at hget
      cases st with
      | existed b' =>
        cases htb' : temp b' with
        | some c' =>
          rw [restoreFiles_cons_existed_hit _ _ _ _ _ _ htb']
          exact ih _ _ _ _ _ hnd.2 hget htb
        | none =>
          rw [restoreFiles_cons_existed_miss _ _ _ _ _ htb']
          exact ih _ _ _ _ _ hnd.2 hget htb
      | absent =>
        rw [restoreFiles_cons_absent]
        exact ih _ _ _ _ _ hnd.2 hget htb

theorem restoreFiles_get_existed_missing : ∀ (info : BackupInfo) (temp : TempDir)
    (fs : FS) (p b : FPath),
    (dictKeys info).Nodup → dictGet info p = some (.existed b) →
    temp b = none → restoreFiles info temp fs p = fs p := by
  intro info
  induction info with
  | nil => intro temp fs p b _ hget; simp [dictGet] at hget
  | cons e rest ih =>
    intro temp fs p b hnd hget htb
    obtain ⟨q, st⟩ := e
    simp only [dictKeys, List.map_cons, List.nodup_cons] at hnd
    by_cases hq : q = p
    · subst hq
      rw [dictGet_cons_self] at hget
      injection hget with hst
      subst hst
      rw [restoreFiles_cons_existed_miss _ _ _ _ _ htb,
        restoreFiles_get_not_mem _ _ _ _ hnd.1]
    · rw [dictGet_cons_ne _ _ _ _ hq] at hget
      have hpq : p ≠ q := fun h => hq h.symm
      cases st with
      | existed b' =>
        cases htb' : temp b' with
        | some c' =>
          rw [restoreFiles_cons_existed_hit _ _ _ _ _ _ htb',
            ih _ _ _ _ hnd.2 hget htb, fsWrite_ne _ _ _ _ hpq]
        | none =>
          rw [restoreFiles_cons_existed_miss _ _ _ _ _ htb']
          exact ih _ _ _ _ hnd.2 hget htb
      | absent =>
        rw [restoreFiles_cons_absent, ih _ _ _ _ hnd.2 hget htb]
        by_cases hex : (fs q).isSome
        · rw [if_pos hex, fsDelete_ne _ _ _ hpq]
        · rw [if_neg hex]

theorem restoreFiles_get_absent : ∀ (info : BackupInfo) (temp : TempDir)
    (fs : FS) (p : FPath),
    (dictKeys info).Nodup → dictGet info p = some .absent →
    restoreFiles info temp fs p = none := by
  intro info
  induction info with
  | nil => intro temp fs p _ hget; simp [dictGet] at hget
  | cons e rest ih =>
    intro temp fs p hnd hget
    obtain ⟨q, st⟩ := e
    simp only [dictKeys, List.map_cons, List.nodup_cons] at hnd
    by_cases hq : q = p
    · subst hq
      rw [dictGet_cons_self] at hget
      injection hget with hst
      subst hst
      rw [restoreFiles_cons_absent]
      by_cases hex : (fs q).isSome
      · rw [if_pos hex, restoreFiles_get_not_mem _ _ _ _ hnd.1, fsDelete_self]
      · rw [if_neg hex, restoreFiles_get_not_mem _ _ _ _ hnd.1]
        exact Option.not_isSome_iff_eq_none.mp hex
    · rw [dictGet_cons_ne _ _ _ _ hq] at hget
      cases st with
      | existed b' =>
        cases htb' : temp b' with
        | some c' =>
          rw [restoreFiles_cons_existed_hit _ _ _ _ _ _ htb']
          exact ih _ _ _ hnd.2 hget
        | none =>
          rw [restoreFiles_cons_existed_miss _ _ _ _ _ htb']
          exact ih _ _ _ hnd.2 hget
      | absent =>
        rw [restoreFiles_cons_absent]
        exact ih _ _ _ hnd.2 hget

/-! ### The snapshot loop -/

theorem captureFrom_nil (fs : FS) (oracle : CopyOracle) (i : Nat)
    (info : BackupInfo) (temp : TempDir) :
    captureFrom fs oracle [] i info temp = .ok (info, temp) := rfl

theorem captureFrom_cons_existing (fs : FS) (oracle : CopyOracle) (p : FPath)
    (rest : List FPath) (i : Nat) (info : BackupInfo) (temp : TempDir)
    (c : Content) (hc : fs p = some c) (ho : oracle p = none) :
    captureFrom fs oracle (p :: rest) i info temp
      = captureFrom fs oracle rest (i + 1)
          (dictInsert info p (.existed (backupName i p)))
          (fsWrite temp (backupName i p) c) := by
  simp [captureFrom, hc, ho]

theorem captureFrom_cons_missing (fs : FS) (oracle : CopyOracle) (p : FPath)
    (rest : List FPath) (i : Nat) (info : BackupInfo) (temp : TempDir)
    (hc : fs p = none) :
    captureFrom fs oracle (p :: rest) i info temp
      = captureFrom fs oracle rest (i + 1) (dictInsert info p .absent) temp := by
  simp [captureFrom, hc]

theorem captureFrom_cons_fail (fs : FS) (oracle : CopyOracle) (p : FPath)
    (rest : List FPath) (i : Nat) (info : BackupInfo) (temp : TempDir)
    (c : Content) (err : IOErr) (hc : fs p = some c) (ho : oracle p = some err) :
    captureFrom fs oracle (p :: rest) i info temp = .error err := by
  simp [captureFrom, hc, ho]

theorem captureFrom_ok (fs : FS) : ∀ (files : List FPath) (i : Nat)
    (info : BackupInfo) (temp : TempDir),
    ∃ out, captureFrom fs ioOk files i info temp = .ok out := by
  intro files
  induction files with
  | nil => intro i info temp; exact ⟨(info, temp), rfl⟩
  | cons p rest ih =>
    intro i info temp
    cases hc : fs p with
    | some c =>
      rw [captureFrom_cons_existing fs ioOk p rest i info temp c hc rfl]
      exact ih _ _ _
    | none =>
      rw [captureFrom_cons_missing fs ioOk p rest i info temp hc]
      exact ih _ _ _

theorem captureFrom_temp_lt (fs : FS) : ∀ (files : List FPath) (i : Nat)
    (info : BackupInfo) (temp : TempDir) (info' : BackupInfo) (temp' : TempDir),
    captureFrom fs ioOk files i info temp = .ok (info', temp') →
    ∀ (j : Nat) (q : FPath), j < i →
    temp' (backupName j q) = temp (backupName j q) := by
  intro files
  induction files with
  | nil =>
    intro i info temp info' temp' h j q _
    injection h with h2
    injection h2 with h3 h4
    rw [← h4]
  | cons p rest ih =>
    intro i info temp info' temp' h j q hj
    cases hc : fs p with
    | some c =>
      rw [captureFrom_cons_existing fs ioOk p rest i info temp c hc rfl] at h
      rw [ih _ _ _ _ _ h j q (by omega),
        fsWrite_ne _ _ _ _ (fun hbe => absurd (backupName_inj_idx hbe) (by omega))]
    | none =>
      rw [captureFrom_cons_missing fs ioOk p rest i info temp hc] at h
      exact ih _ _ _ _ _ h j q (by omega)

theorem captureFrom_get_not_mem (fs : FS) : ∀ (files : List FPath) (i : Nat)
    (info : BackupInfo) (temp : TempDir) (info' : BackupInfo) (temp' : TempDir),
    captureFrom fs ioOk files i info temp = .ok (info', temp') →
    ∀ p, p ∉ files → dictGet info' p = dictGet info p := by
  intro files
  induction files with
  | nil =>
    intro i info temp info' temp' h p _
    injection h with h2
    injection h2 with h3 h4
    rw [← h3]
  | cons q rest ih =>
    intro i info temp info' temp' h p hp
    simp only [List.mem_cons, not_or] at hp
    cases hc : fs q with
    | some c =>
      rw [captureFrom_cons_existing fs ioOk q rest i info temp c hc rfl] at h
      rw [ih _ _ _ _ _ h p hp.2, dictGet_insert_ne _ _ _ _ hp.1]
    | none =>
      rw [captureFrom_cons_missing fs ioOk q rest i info temp hc] at h
      rw [ih _ _ _ _ _ h p hp.2, dictGet_insert_ne _ _ _ _ hp.1]

theorem captureFrom_mem_keys (fs : FS) : ∀ (files : List FPath) (i : Nat)
    (info : BackupInfo) (temp : TempDir) (info' : BackupInfo) (temp' : TempDir),
    captureFrom fs ioOk files i info temp = .ok (info', temp') →
    ∀ p, p ∈ dictKeys info' ↔ p ∈ dictKeys info ∨ p ∈ files := by
  intro files
  induction files with
  | nil =>
    intro i info temp info' temp' h p
    injection h with h2
    injection h2 with h3 h4
    rw [← h3]
    simp
  | cons q rest ih =>
    intro i info temp info' temp' h p
    cases hc : fs q with
    | some c =>
      rw [captureFrom_cons_existing fs ioOk q rest i info temp c hc rfl] at h
      rw [ih _ _ _ _ _ h p, mem_dictKeys_insert, List.mem_cons]
      tauto
    | none =>
      rw [captureFrom_cons_missing fs ioOk q rest i info temp hc] at h
      rw [ih _ _ _ _ _ h p, mem_dictKeys_insert, List.mem_cons]
      tauto

theorem captureFrom_nodup (fs : FS) : ∀ (files : List FPath) (i : Nat)
    (info : BackupInfo) (temp : TempDir) (info' : BackupInfo) (temp' : TempDir),
    captureFrom fs ioOk files i info temp = .ok (info', temp') →
    (dictKeys info).Nodup → (dictKeys info').Nodup := by
  intro files
  induction files with
  | nil =>
    intro i info temp info' temp' h hnd
    injection h with h2
    injection h2 with h3 h4
    rw [← h3]
    exact hnd
  | cons q rest ih =>
    intro i info temp info' temp' h hnd
    cases hc : fs q with
    | some c =>
      rw [captureFrom_cons_existing fs ioOk q rest i info temp c hc rfl] at h
      exact ih _ _ _ _ _ h (nodup_dictKeys_insert _ _ _ hnd)
    | none =>
      rw [captureFrom_cons_missing fs ioOk q rest i info temp hc] at h
      exact ih _ _ _ _ _ h (nodup_dictKeys_insert _ _ _ hnd)

theorem captureFrom_spec_existed (fs : FS) : ∀ (files : List FPath) (i : Nat)
    (info : BackupInfo) (temp : TempDir) (info' : BackupInfo) (temp' : TempDir),
    captureFrom fs ioOk files i info temp = .ok (info', temp') →
    ∀ (p : FPath) (c : Content), p ∈ files → fs p = some c →
    ∃ b, dictGet info' p = some (.existed b) ∧ temp' b = some c := by
  intro files
  induction files with
  | nil => intro _ _ _ _ _ _ p c hp; exact absurd hp (List.not_mem_nil p)
  | cons q rest ih =>
    intro i info temp info' temp' h p c hp hc
    cases hq : fs q with
    | some cq =>
      rw [captureFrom_cons_existing fs ioOk q rest i info temp cq hq rfl] at h
      by_cases hpr : p ∈ rest
      · exact ih _ _ _ _ _ h p c hpr hc
      · have hpq : p = q := by
          rcases List.mem_cons.mp hp with h' | h'
          · exact h'
          · exact absurd h' hpr
        subst hpq
        have hcq : cq = c := by
          rw [hq] at hc
          injection hc
        subst hcq
        refine ⟨backupName i p, ?_, ?_⟩
        · rw [captureFrom_get_not_mem fs rest _ _ _ _ _ h p hpr, dictGet_insert_self]
        · rw [captureFrom_temp_lt fs rest _ _ _ _ _ h i p (by omega), fsWrite_self]
    | none =>
      rw [captureFrom_cons_missing fs ioOk q rest i info temp hq] at h
      have hpq : p ≠ q := by
        intro he
        rw [he, hq] at hc
        cases hc
      have hpr : p ∈ rest := by
        rcases List.mem_cons.mp hp with h' | h'
        · exact absurd h' hpq
        · exact h'
      exact ih _ _ _ _ _ h p c hpr hc

theorem captureFrom_spec_absent (fs : FS) : ∀ (files : List FPath) (i : Nat)
    (info : BackupInfo) (temp : TempDir) (info' : BackupInfo) (temp' : TempDir),
    captureFrom fs ioOk files i info temp = .ok (info', temp') →
    ∀ (p : FPath), p ∈ files → fs p = none →
    dictGet info' p = some .absent := by
  intro files
  induction files with
  | nil => intro _ _ _ _ _ _ p hp; exact absurd hp (List.not_mem_nil p)
  | cons q rest ih =>
    intro i info temp info' temp' h p hp hc
    cases hq : fs q with
    | some cq =>
      rw [captureFrom_cons_existing fs ioOk q rest i info temp cq hq rfl] at h
      have hpq : p ≠ q := by
        intro he
        rw [he, hq] at hc
        cases hc
      have hpr : p ∈ rest := by
        rcases List.mem_cons.mp hp with h' | h'
        · exact absurd h' hpq
        · exact h'
      exact ih _ _ _ _ _ h p hpr hc
    | none =>
      rw [captureFrom_cons_missing fs ioOk q rest i info temp hq] at h
      by_cases hpr : p ∈ rest
      · exact ih _ _ _ _ _ h p hpr hc
      · have hpq : p = q := by
          rcases List.mem_cons.mp hp with h' | h'
          · exact h'
          · exact absurd h' hpr
        subst hpq
        rw [captureFrom_get_not_mem fs rest _ _ _ _ _ h p hpr, dictGet_insert_self]

theorem captureFrom_fails (fs : FS) (oracle : CopyOracle) : ∀ (files : List FPath)
    (i : Nat) (info : BackupInfo) (temp : TempDir) (p : FPath) (c : Content)
    (err : IOErr), p ∈ files → fs p = some c → oracle p = some err →
    ∃ e, captureFrom fs oracle files i info temp = .error e := by
  intro files
  induction files with
  | nil => intro _ _ _ p _ _ hp; exact absurd hp (List.not_mem_nil p)
  | cons q rest ih =>
    intro i info temp p c err hp hc he
    cases hq : fs q with
    | some cq =>
      cases hoq : oracle q with
      | some e0 =>
        exact ⟨e0, captureFrom_cons_fail fs oracle q rest i info temp cq e0 hq hoq⟩
      | none =>
        have hpq : p ≠ q := by
          intro h'
          rw [h', hoq] at he
          cases he
        have hpr : p ∈ rest := by
          rcases List.mem_cons.mp hp with h' | h'
          · exact absurd h' hpq
          · exact h'
        rw [captureFrom_cons_existing fs oracle q rest i info temp cq hq hoq]
        exact ih _ _ _ p c err hpr hc he
    | none =>
      have hpq : p ≠ q := by
        intro h'
        rw [h', hq] at hc
        cases hc
      have hpr : p ∈ rest := by
        rcases List.mem_cons.mp hp with h' | h'
        · exact absurd h' hpq
        · exact h'
      rw [captureFrom_cons_missing fs oracle q rest i info temp hq]
      exact ih _ _ _ p c err hpr hc he

/-! ### The guard end to end -/

theorem guard_eq_raised (files : List FPath) (block : Block) (fs fs' : FS)
    (e : Exn) (info : BackupInfo) (temp : TempDir)
    (hcap : captureFrom fs ioOk files 0 [] emptyTemp = .ok (info, temp))
    (hb : block fs = (fs', some e)) :
    file_recovery_on_error files ioOk block fs
      = .raised e (restoreFiles info temp fs') := by
  simp [file_recovery_on_error, hcap, hb]

theorem guard_eq_ok (files : List FPath) (block : Block) (fs fs' : FS)
    (hb : block fs = (fs', none)) :
    file_recovery_on_error files ioOk block fs = .ok fs' := by
  obtain ⟨⟨info, temp⟩, hcap⟩ := captureFrom_ok fs files 0 [] emptyTemp
  simp [file_recovery_on_error, hcap, hb]

theorem guard_restores_existing (files : List FPath) (block : Block)
    (fs fs' : FS) (e : Exn) (p : FPath) (c : Content)
    (hp : p ∈ files) (hc : fs p = some c) (hb : block fs = (fs', some e)) :
    ∃ g, file_recovery_on_error files ioOk block fs = .raised e g
      ∧ g p = some c := by
  obtain ⟨⟨info, temp⟩, hcap⟩ := captureFrom_ok fs files 0 [] emptyTemp
  obtain ⟨b, hget, htb⟩ :=
    captureFrom_spec_existed fs files 0 [] emptyTemp info temp hcap p c hp hc
  have hnd : (dictKeys info).Nodup :=
    captureFrom_nodup fs files 0 [] emptyTemp info temp hcap (by simp [dictKeys])
  exact ⟨restoreFiles info temp fs',
    guard_eq_raised files block fs fs' e info temp hcap hb,
    restoreFiles_get_existed info temp fs' p b c hnd hget htb⟩

theorem guard_restores_absent (files : List FPath) (block : Block)
    (fs fs' : FS) (e : Exn) (p : FPath)
    (hp : p ∈ files) (hc : fs p = none) (hb : block fs = (fs', some e)) :
    ∃ g, file_recovery_on_error files ioOk block fs = .raised e g
      ∧ g p = none := by
  obtain ⟨⟨info, temp⟩, hcap⟩ := captureFrom_ok fs files 0 [] emptyTemp
  have hget := captureFrom_spec_absent fs files 0 [] emptyTemp info temp hcap p hp hc
  have hnd : (dictKeys info).Nodup :=
    captureFrom_nodup fs files 0 [] emptyTemp info temp hcap (by simp [dictKeys])
  exact ⟨restoreFiles info temp fs',
    guard_eq_raised files block fs fs' e info temp hcap hb,
    restoreFiles_get_absent info temp fs' p hnd hget⟩

/-! ### Concrete demonstration data for the witnesses -/

/-- Original bytes of the demonstration file (`"v1"`). -/
def vOld : Content := [118, 49]

/-- Bytes written by a failing demonstration block (`"v2"`). -/
def vNew : Content := [118, 50]

/-- A demonstration `ValueError`. -/
def demoExn : Exn := ⟨"ValueError", "Something went wrong", "trace1", true⟩

/-- A demonstration `RuntimeError`. -/
def demoExn2 : Exn := ⟨"RuntimeError", "Error occurred", "trace2", true⟩

/-- A demonstration `KeyboardInterrupt`: a `BaseException` subclass that is
not an `Exception` subclass. -/
def demoKI : Exn := ⟨"KeyboardInterrupt", "", "trace3", false⟩

/-- A demonstration filesystem holding one file `a.txt` with content `"v1"`. -/
def demoFS : FS := fun q => if q = "a.txt" then some vOld else none

/-- A demonstration filesystem holding no files at all. -/
def demoNoFS : FS := fun _ => none

/-! ### The claims -/

/-- Claim C1: for every list of protected paths and every path in it that
existed at scope entry, if the caller's block raises any exception, then
after the scope exits the file at that path exists and its content is
byte-identical to its content at entry, regardless of what mutations
happened inside the block. -/
theorem claim_C1_rollback_restores_existing_files (files : List FPath)
    (block : Block) (fs fs' : FS) (e : Exn) (p : FPath) (c : Content)
    (hp : p ∈ files) (hc : fs p = some c) (hb : block fs = (fs', some e)) :
    ∃ g, file_recovery_on_error files ioOk block fs = .raised e g
      ∧ g p = some c :=
  guard_restores_existing files block fs fs' e p c hp hc hb

/-- Witness for C1: `a.txt` holds `"v1"`, the block overwrites it with
`"v2"` and raises; afterwards `a.txt` holds `"v1"` again. -/
theorem claim_C1_witness :
    ∃ g, file_recovery_on_error ["a.txt"] ioOk
        (fun g0 => (fsWrite g0 "a.txt" vNew, some demoExn)) demoFS
      = .raised demoExn g ∧ g "a.txt" = some vOld :=
  claim_C1_rollback_restores_existing_files ["a.txt"]
    (fun g0 => (fsWrite g0 "a.txt" vNew, some demoExn)) demoFS
    (fsWrite demoFS "a.txt" vNew) demoExn "a.txt" vOld
    (by decide) (by decide) rfl

/-- Claim C2: for every list of protected paths and every path in it that
did not exist at scope entry, if the caller's block raises any exception,
then after the scope exits that path does not exist (a created file is
deleted; a still-absent path is left alone). -/
theorem claim_C2_rollback_deletes_created_files (files : List FPath)
    (block : Block) (fs fs' : FS) (e : Exn) (p : FPath)
    (hp : p ∈ files) (hc : fs p = none) (hb : block fs = (fs', some e)) :
    ∃ g, file_recovery_on_error files ioOk block fs = .raised e g
      ∧ g p = none :=
  guard_restores_absent files block fs fs' e p hp hc hb

/-- Witness for C2: `b.txt` does not exist, the block creates it and
raises; afterwards `b.txt` does not exist. -/
theorem claim_C2_witness :
    ∃ g, file_recovery_on_error ["b.txt"] ioOk
        (fun g0 => (fsWrite g0 "b.txt" [120], some demoExn2)) demoNoFS
      = .raised demoExn2 g ∧ g "b.txt" = none :=
  claim_C2_rollback_deletes_created_files ["b.txt"]
    (fun g0 => (fsWrite g0 "b.txt" [120], some demoExn2)) demoNoFS
    (fsWrite demoNoFS "b.txt" [120]) demoExn2 "b.txt"
    (by decide) (by decide) rfl

/-- Claim C3: for every exception raised inside the protected block, after
restoration the guard re-raises exactly the original exception value —
same type, message and attached context — and never substitutes, wraps or
swallows it. -/
theorem claim_C3_reraises_original_exception (files : List FPath)
    (block : Block) (fs fs' : FS) (e : Exn) (hb : block fs = (fs', some e)) :
    ∃ g, file_recovery_on_error files ioOk block fs = .raised e g := by
  obtain ⟨⟨info, temp⟩, hcap⟩ := captureFrom_ok fs files 0 [] emptyTemp
  exact ⟨_, guard_eq_raised files block fs fs' e info temp hcap hb⟩

/-- Witness for C3: a block that does nothing but raise; the very same
exception value comes back out. -/
theorem claim_C3_witness :
    ∃ g, file_recovery_on_error ["a.txt"] ioOk
        (fun g0 => (g0, some demoExn)) demoFS = .raised demoExn g :=
  claim_C3_reraises_original_exception ["a.txt"]
    (fun g0 => (g0, some demoExn)) demoFS demoFS demoExn rfl

/-- Claim C4: for every list of protected paths (any mix of pre-existing
and absent, including the empty list), if the caller's block completes
without raising, the guard performs no mutation of its own: the final
filesystem is exactly what the block left. -/
theorem claim_C4_noop_on_success (files : List FPath) (block : Block)
    (fs fs' : FS) (hb : block fs = (fs', none)) :
    file_recovery_on_error files ioOk block fs = .ok fs' :=
  guard_eq_ok files block fs fs' hb

/-- Witness for C4: a successful block writing `out.txt`; the guard
returns exactly the block's final filesystem. -/
theorem claim_C4_witness :
    file_recovery_on_error ["a.txt", "b.txt"] ioOk
        (fun g0 => (fsWrite g0 "out.txt" [1], none)) demoFS
      = .ok (fsWrite demoFS "out.txt" [1]) :=
  claim_C4_noop_on_success ["a.txt", "b.txt"]
    (fun g0 => (fsWrite g0 "out.txt" [1], none)) demoFS
    (fsWrite demoFS "out.txt" [1]) rfl

/-- Claim C5: if snapshot capture fails for a protected existing path at
scope entry, the guard fails with that copy error, the caller's block
never runs (the outcome is the same for every block, and the entry
filesystem is returned untouched), and no restoration is attempted. -/
theorem claim_C5_snapshot_failure_aborts (files : List FPath)
    (oracle : CopyOracle) (fs : FS) (p : FPath) (c : Content) (err : IOErr)
    (hp : p ∈ files) (hc : fs p = some c) (hfail : oracle p = some err) :
    ∃ e, ∀ block : Block,
      file_recovery_on_error files oracle block fs = .snapshotError e fs := by
  obtain ⟨e, hcap⟩ :=
    captureFrom_fails fs oracle files 0 [] emptyTemp p c err hp hc hfail
  exact ⟨e, fun block => by simp [file_recovery_on_error, hcap]⟩

/-- Witness for C5: copying `a.txt` fails at entry; the guard aborts the
same way whatever block was given. -/
theorem claim_C5_witness :
    ∃ e, ∀ block : Block,
      file_recovery_on_error ["a.txt"]
        (fun q => if q = "a.txt" then some "copy failed" else none)
        block demoFS = .snapshotError e demoFS :=
  claim_C5_snapshot_failure_aborts ["a.txt"]
    (fun q => if q = "a.txt" then some "copy failed" else none)
    demoFS "a.txt" vOld "copy failed" (by decide) (by decide) (by decide)

/-- Claim C6: during restoration, a recorded `('exists', backup)` entry
whose backup file is missing at restore time is skipped without any
secondary error (the restore loop is total and simply continues with the
remaining entries, leaving that path as the block left it), and the guard
still re-raises the original exception. -/
theorem claim_C6_missing_backup_skipped (p b : FPath) (rest : BackupInfo)
    (temp : TempDir) (fs : FS) (hmiss : temp b = none) :
    restoreFiles ((p, .existed b) :: rest) temp fs = restoreFiles rest temp fs
    ∧ (p ∉ dictKeys rest →
        restoreFiles ((p, .existed b) :: rest) temp fs p = fs p)
    ∧ ∀ (files : List FPath) (block : Block) (g g' : FS) (e : Exn),
        block g = (g', some e) →
        ∃ gR, file_recovery_on_error files ioOk block g = .raised e gR := by
  refine ⟨restoreFiles_cons_existed_miss p b rest temp fs hmiss,
    fun hnm => ?_, ?_⟩
  · rw [restoreFiles_cons_existed_miss p b rest temp fs hmiss,
      restoreFiles_get_not_mem rest temp fs p hnm]
  · intro files block g g' e hb
    obtain ⟨⟨info, tmp⟩, hcap⟩ := captureFrom_ok g files 0 [] emptyTemp
    exact ⟨_, guard_eq_raised files block g g' e info tmp hcap hb⟩

/-- Witness for C6: an `('exists', backup)` record whose backup name is
absent from the temporary directory is skipped and the file keeps the
content the block left. -/
theorem claim_C6_witness :
    restoreFiles [("a.txt", .existed "backup_9_gone")] emptyTemp demoFS
        = restoreFiles [] emptyTemp demoFS
    ∧ ("a.txt" ∉ dictKeys [] →
        restoreFiles [("a.txt", .existed "backup_9_gone")] emptyTemp demoFS
          "a.txt" = demoFS "a.txt")
    ∧ ∀ (files : List FPath) (block : Block) (g g' : FS) (e : Exn),
        block g = (g', some e) →
        ∃ gR, file_recovery_on_error files ioOk block g = .raised e gR :=
  claim_C6_missing_backup_skipped "a.txt" "backup_9_gone" [] emptyTemp
    demoFS rfl

/-- The outer block of a nested scenario: it runs an inner guard over the
path set `B` around `innerBlock` (after a preliminary mutation `pre`),
then mutates further with `post` and raises `eOut`. -/
def outerWithInner (B : List FPath) (innerBlock : Block) (pre post : FS → FS)
    (eOut : Exn) : Block :=
  fun g =>
    match file_recovery_on_error B ioOk innerBlock (pre g) with
    | .snapshotError _ gR => (post gR, some eOut)
    | .ok gR => (post gR, some eOut)
    | .raised _ gR => (post gR, some eOut)

/-- Claim C7: two nested guard invocations over disjoint path sets are
independent — each invocation owns its own private backup area and record
map (a fresh empty temporary directory and a fresh `backup_info`), so the
inner guard's failure rolls back its own set `B` to the inner entry state,
and the outer guard's later failure still restores every path of `A` to
its state at the outer entry. -/
theorem claim_C7_nested_guards_independent (A B : List FPath)
    (pA pB : FPath) (cA cB : Content) (fs0 : FS) (innerBlock : Block)
    (pre post : FS → FS) (fs1' : FS) (eIn eOut : Exn)
    (_hdisj : A.Disjoint B) (hA : pA ∈ A) (hB : pB ∈ B)
    (hcA : fs0 pA = some cA) (hcB : pre fs0 pB = some cB)
    (hInner : innerBlock (pre fs0) = (fs1', some eIn)) :
    (∃ gI, file_recovery_on_error B ioOk innerBlock (pre fs0)
        = .raised eIn gI ∧ gI pB = some cB)
    ∧ (∃ gO, file_recovery_on_error A ioOk
          (outerWithInner B innerBlock pre post eOut) fs0
        = .raised eOut gO ∧ gO pA = some cA) := by
  constructor
  · exact guard_restores_existing B innerBlock (pre fs0) fs1' eIn pB cB
      hB hcB hInner
  · cases hout : file_recovery_on_error B ioOk innerBlock (pre fs0) with
    | snapshotError e' gR =>
      have hb : outerWithInner B innerBlock pre post eOut fs0
          = (post gR, some eOut) := by simp [outerWithInner, hout]
      exact guard_restores_existing A _ fs0 (post gR) eOut pA cA hA hcA hb
    | ok gR =>
      have hb : outerWithInner B innerBlock pre post eOut fs0
          = (post gR, some eOut) := by simp [outerWithInner, hout]
      exact guard_restores_existing A _ fs0 (post gR) eOut pA cA hA hcA hb
    | raised e' gR =>
      have hb : outerWithInner B innerBlock pre post eOut fs0
          = (post gR, some eOut) := by simp [outerWithInner, hout]
      exact guard_restores_existing A _ fs0 (post gR) eOut pA cA hA hcA hb

/-- Witness for C7: outer guard over `a`, inner guard over `b`; inner
mutates and raises, outer raises afterwards; `b` is restored by the inner
rollback and `a` by the outer rollback. -/
theorem claim_C7_witness :
    (∃ gI, file_recovery_on_error ["b"] ioOk
        (fun g0 => (fsDelete g0 "b", some demoExn))
        ((fun g0 => fsWrite g0 "b" [2]) (fun q => if q = "a" then some [1] else none))
        = .raised demoExn gI ∧ gI "b" = some [2])
    ∧ (∃ gO, file_recovery_on_error ["a"] ioOk
          (outerWithInner ["b"] (fun g0 => (fsDelete g0 "b", some demoExn))
            (fun g0 => fsWrite g0 "b" [2]) id demoExn2)
          (fun q => if q = "a" then some [1] else none)
        = .raised demoExn2 gO ∧ gO "a" = some [1]) :=
  claim_C7_nested_guards_independent ["a"] ["b"] "a" "b" [1] [2]
    (fun q => if q = "a" then some [1] else none)
    (fun g0 => (fsDelete g0 "b", some demoExn))
    (fun g0 => fsWrite g0 "b" [2]) id
    (fsDelete ((fun g0 => fsWrite g0 "b" [2])
      (fun q => if q = "a" then some [1] else none)) "b")
    demoExn demoExn2
    (by
      intro x hx hy
      simp only [List.mem_singleton] at hx hy
      rw [hx] at hy
      exact absurd hy (by decide))
    (by decide) (by decide) (by decide) (by decide) rfl

/-- Claim C8: running the guard twice in sequence over the same protected
path, each time with a block that mutates and raises, restores the same
original content both times — repeated guarded failures cause no
cumulative drift. -/
theorem claim_C8_repeated_failures_no_drift (p : FPath) (c : Content)
    (fs0 g1 : FS) (block1 block2 : Block) (e1 e2 : Exn)
    (hc : fs0 p = some c) (h1 : block1 fs0 = (g1, some e1))
    (h2 : ∀ g : FS, ∃ g', block2 g = (g', some e2)) :
    ∃ fs1 fs2, file_recovery_on_error [p] ioOk block1 fs0 = .raised e1 fs1
      ∧ fs1 p = some c
      ∧ file_recovery_on_error [p] ioOk block2 fs1 = .raised e2 fs2
      ∧ fs2 p = some c := by
  obtain ⟨fs1, hg1, hp1⟩ := guard_restores_existing [p] block1 fs0 g1 e1 p c
    (List.mem_singleton.mpr rfl) hc h1
  obtain ⟨g2, hb2⟩ := h2 fs1
  obtain ⟨fs2, hg2, hp2⟩ := guard_restores_existing [p] block2 fs1 g2 e2 p c
    (List.mem_singleton.mpr rfl) hp1 hb2
  exact ⟨fs1, fs2, hg1, hp1, hg2, hp2⟩

/-- Witness for C8: `a.txt` holds `"v1"`; two successive guarded failing
mutations each leave it holding `"v1"`. -/
theorem claim_C8_witness :
    ∃ fs1 fs2, file_recovery_on_error ["a.txt"] ioOk
        (fun g0 => (fsWrite g0 "a.txt" vNew, some demoExn)) demoFS
        = .raised demoExn fs1
      ∧ fs1 "a.txt" = some vOld
      ∧ file_recovery_on_error ["a.txt"] ioOk
          (fun g0 => (fsWrite g0 "a.txt" [55], some demoExn2)) fs1
        = .raised demoExn2 fs2
      ∧ fs2 "a.txt" = some vOld :=
  claim_C8_repeated_failures_no_drift "a.txt" vOld demoFS
    (fsWrite demoFS "a.txt" vNew)
    (fun g0 => (fsWrite g0 "a.txt" vNew, some demoExn))
    (fun g0 => (fsWrite g0 "a.txt" [55], some demoExn2))
    demoExn demoExn2 (by decide) rfl
    (fun g0 => ⟨fsWrite g0 "a.txt" [55], rfl⟩)

/-- Claim C9: within one guard invocation exactly one `backup_info` record
exists per distinct input path (keys are unique and are exactly the input
paths), and backup names for distinct input entries never collide, because
each is keyed by the entry's input index together with the base name —
even when different paths share a base name or a path repeats. -/
theorem claim_C9_one_record_per_path_unique_backups (files : List FPath)
    (fs : FS) (info : BackupInfo) (temp : TempDir)
    (hcap : captureFrom fs ioOk files 0 [] emptyTemp = .ok (info, temp)) :
    (dictKeys info).Nodup
    ∧ (∀ p, p ∈ dictKeys info ↔ p ∈ files)
    ∧ (∀ (i j : Nat) (p q : FPath), i ≠ j →
        backupName i p ≠ backupName j q) := by
  refine ⟨captureFrom_nodup fs files 0 [] emptyTemp info temp hcap
      (by simp [dictKeys]),
    fun p => ?_, fun i j p q hij h => hij (backupName_inj_idx h)⟩
  rw [captureFrom_mem_keys fs files 0 [] emptyTemp info temp hcap p]
  simp [dictKeys]

/-- Witness for C9: a one-path capture (of an absent file) yields exactly
one record, keyed by that path. -/
theorem claim_C9_witness :
    (dictKeys [("nope.txt", PriorStatus.absent)]).Nodup
    ∧ (∀ p, p ∈ dictKeys [("nope.txt", PriorStatus.absent)]
        ↔ p ∈ ["nope.txt"])
    ∧ (∀ (i j : Nat) (p q : FPath), i ≠ j →
        backupName i p ≠ backupName j q) :=
  claim_C9_one_record_per_path_unique_backups ["nope.txt"] demoNoFS
    [("nope.txt", PriorStatus.absent)] emptyTemp rfl

/-- Claim C10: restoration followed by a verbatim re-raise is triggered by
every exit of the protected block via a raised throwable of any kind —
the quantification over `e : Exn` includes values with
`isExceptionSubclass = false`, i.e. `BaseException`-only throwables such
as `KeyboardInterrupt` and `SystemExit` — because line 136 is a bare
`except:` clause.  No exception value escapes the scope without the
rollback being performed first. -/
theorem claim_C10_bare_except_catches_everything (files : List FPath)
    (block : Block) (fs fs' : FS) (e : Exn)
    (hb : block fs = (fs', some e)) :
    ∃ info temp, captureFrom fs ioOk files 0 [] emptyTemp = .ok (info, temp)
      ∧ file_recovery_on_error files ioOk block fs
          = .raised e (restoreFiles info temp fs')
      ∧ ∀ (p : FPath) (c : Content), p ∈ files → fs p = some c →
          restoreFiles info temp fs' p = some c := by
  obtain ⟨⟨info, temp⟩, hcap⟩ := captureFrom_ok fs files 0 [] emptyTemp
  refine ⟨info, temp, hcap,
    guard_eq_raised files block fs fs' e info temp hcap hb, ?_⟩
  intro p c hp hc
  obtain ⟨b, hget, htb⟩ :=
    captureFrom_spec_existed fs files 0 [] emptyTemp info temp hcap p c hp hc
  have hnd := captureFrom_nodup fs files 0 [] emptyTemp info temp hcap
    (by simp [dictKeys])
  exact restoreFiles_get_existed info temp fs' p b c hnd hget htb

/-- Witness for C10: the block deletes `a.txt` and raises a
`KeyboardInterrupt`-like throwable (`isExceptionSubclass = false`);
rollback still happens and the same throwable is re-raised. -/
theorem claim_C10_witness :
    ∃ info temp, captureFrom demoFS ioOk ["a.txt"] 0 [] emptyTemp
        = .ok (info, temp)
      ∧ file_recovery_on_error ["a.txt"] ioOk
          (fun g0 => (fsDelete g0 "a.txt", some demoKI)) demoFS
          = .raised demoKI (restoreFiles info temp (fsDelete demoFS "a.txt"))
      ∧ ∀ (p : FPath) (c : Content), p ∈ ["a.txt"] → demoFS p = some c →
          restoreFiles info temp (fsDelete demoFS "a.txt") p = some c :=
  claim_C10_bare_except_catches_everything ["a.txt"]
    (fun g0 => (fsDelete g0 "a.txt", some demoKI)) demoFS
    (fsDelete demoFS "a.txt") demoKI rfl

end FiscAI
